import Mathlib

/-
Verification of the Post50 blogging application (src/Post50/app.py) against
its natural-language specification.

The embedding works over explicit relational state: the SQLAlchemy tables
become lists of rows, the request handlers become pure functions from a
database state (plus request data) to a response and a new database state.
Python strings are modelled as `List Char` (ASCII fragment: `\w` is taken
as ASCII alphanumeric or underscore, `str.lower` as `Char.toLower`,
`str.strip` as stripping ASCII whitespace), and Python sets of strings as
`Finset (List Char)`.  `list.sort(key=..., reverse=True)` is a stable
descending sort; it is modelled by `List.insertionSort` with the
"greater-or-equal key" relation, which is the same stable descending sort.
-/

namespace Post50

/-! ## Python string primitives over `List Char` -/

/-- Python `str.lower`, restricted to ASCII: lowercase every character. -/
def pyLower (s : List Char) : List Char :=
  s.map Char.toLower

/-- The characters Python `str.strip()` removes by default (ASCII part). -/
def pySpace (c : Char) : Bool :=
  c = ' ' || c = '\t' || c = '\n' || c = '\r' || c = '\x0b' || c = '\x0c'

/-- Python `str.strip()`: drop whitespace from both ends. -/
def pyStrip (s : List Char) : List Char :=
  ((s.dropWhile pySpace).reverse.dropWhile pySpace).reverse

/-- Python `s.split(',')`: split on every comma; `"".split(',') = [""]`. -/
def splitComma : List Char → List (List Char)
  | [] => [[]]
  | c :: cs =>
    if c = ',' then [] :: splitComma cs
    else
      match splitComma cs with
      | [] => [[c]]
      | g :: gs => (c :: g) :: gs

/-- Python `s.lstrip('#')`: drop every leading `'#'` character. -/
def lstripHash (s : List Char) : List Char :=
  s.dropWhile (fun c => c = '#')

/-! ## Data model (classes User, Post, Tag, Vote of app.py)

Only the columns the specified behaviour reads are carried.  Timestamps
are modelled as naturals (`created_at`); vote values as integers. -/

structure User where
  id : Nat
  username : List Char
deriving DecidableEq

structure Post where
  id : Nat
  title : List Char
  content : List Char
  author_id : Nat
  created_at : Nat
deriving DecidableEq

structure Tag where
  id : Nat
  name : List Char
deriving DecidableEq

/-- A row of the `vote` table; `value` is intended to be +1 or -1. -/
structure Vote where
  id : Nat
  value : Int
  user_id : Nat
  post_id : Nat
deriving DecidableEq

/-- The relational store: one list of rows per table.  `post_tags` is the
association table, as (post_id, tag_id) pairs. -/
structure DB where
  users : List User
  posts : List Post
  tags : List Tag
  post_tags : List (Nat × Nat)
  votes : List Vote
deriving DecidableEq

/-- The votes belonging to a post (the ORM relationship `post.votes`). -/
def votesFor (db : DB) (pid : Nat) : List Vote :=
  db.votes.filter (fun v => v.post_id == pid)

/-- `Post.score`: `sum(v.value for v in self.votes) if self.votes else 0`. -/
def score (db : DB) (p : Post) : Int :=
  if (votesFor db p.id).isEmpty then 0
  else ((votesFor db p.id).map Vote.value).sum

/-- `Vote.query.filter_by(post_id=pid, value=1).count()`. -/
def upvoteCount (db : DB) (pid : Nat) : Nat :=
  (db.votes.filter (fun v => v.post_id == pid && v.value == 1)).length

/-- `Vote.query.filter_by(post_id=pid, value=-1).count()`. -/
def downvoteCount (db : DB) (pid : Nat) : Nat :=
  (db.votes.filter (fun v => v.post_id == pid && v.value == -1)).length

/-! ## Vote ledger (route post_vote of app.py) -/

/-- `Vote.query.filter_by(user_id=uid, post_id=pid)`: the rows for one
(user, post) pair. -/
def votesBy (db : DB) (uid pid : Nat) : List Vote :=
  db.votes.filter (fun v => v.user_id == uid && v.post_id == pid)

/-- A fresh autoincremented primary key for a new vote row. -/
def freshVoteId (db : DB) : Nat :=
  (db.votes.map Vote.id).foldr Nat.max 0 + 1

/-- The ledger mutation inside post_vote, after input validation:
look up the existing vote by `.first()`; same value: delete it;
different value: update it in place; no vote: insert a new row. -/
def castVote (db : DB) (uid pid : Nat) (value : Int) : DB :=
  match (votesBy db uid pid).head? with
  | some v =>
    if v.value = value then
      { db with votes := db.votes.filter (fun w => !(w.id == v.id)) }
    else
      { db with votes := db.votes.map (fun w => if w.id = v.id then { w with value := value } else w) }
  | none =>
    { db with votes := db.votes ++ [{ id := freshVoteId db, value := value, user_id := uid, post_id := pid }] }

/-- The request body of POST /post/{id}/vote.  A JSON body carries an
optional `vote_type` string; a form body carries the `value` field, as
`none` when the field is missing or `int()` raised on it. -/
inductive VoteRequest where
  | jsonBody (vote_type : Option (List Char))
  | formBody (value : Option Int)
deriving DecidableEq

inductive VoteResponse where
  | ok (upvotes downvotes : Nat)
  | badRequest
deriving DecidableEq

/-- The post_vote handler: normalize the transport to an integer value
(JSON: "up" to 1, "down" to -1, anything else to 0; form: reject values
outside 1 and -1 with HTTP 400), run the ledger mutation, and answer with
the recomputed upvote and downvote counts. -/
def post_vote (db : DB) (uid pid : Nat) (req : VoteRequest) : VoteResponse × DB :=
  match req with
  | .jsonBody vt =>
    let value : Int := if vt = some "up".toList then 1 else if vt = some "down".toList then -1 else 0
    let db2 := castVote db uid pid value
    (.ok (upvoteCount db2 pid) (downvoteCount db2 pid), db2)
  | .formBody none => (.badRequest, db)
  | .formBody (some v) =>
    if v = 1 ∨ v = -1 then
      let db2 := castVote db uid pid v
      (.ok (upvoteCount db2 pid) (downvoteCount db2 pid), db2)
    else (.badRequest, db)

/-- The uniqueness invariant of the `vote` table: at most one row per
(user, post) pair. -/
def atMostOneVote (db : DB) : Prop :=
  ∀ uid pid, (votesBy db uid pid).length ≤ 1

/-- Primary keys of the vote table are distinct. -/
def voteIdsNodup (db : DB) : Prop :=
  (db.votes.map Vote.id).Nodup

/-- A sequence of castVote operations, each given as (user, post, value). -/
def applyVotes (db : DB) (ops : List (Nat × Nat × Int)) : DB :=
  ops.foldl (fun d op => castVote d op.1 op.2.1 op.2.2) db

/-! ## SQL LIKE matching

The feed filter uses `column.ilike(f"%{q}%")`: case-insensitive LIKE,
where `%` matches any sequence and `_` any single character.  The match is
computed with a fuel argument (`fuel ≥ pattern length + string length`
always holds from the wrapper) so that it is structurally recursive. -/

def likeFuel : Nat → List Char → List Char → Bool
  | _, [], s => s.isEmpty
  | 0, _ :: _, _ => false
  | f + 1, c :: ps, s =>
    if c = '%' then
      likeFuel f ps s ||
        (match s with
         | [] => false
         | _ :: s2 => likeFuel f (c :: ps) s2)
    else
      match s with
      | [] => false
      | d :: s2 => (c = '_' || c.toLower = d.toLower) && likeFuel f ps s2

/-- Does the LIKE pattern `pat` match the whole string `s`
(case-insensitively)? -/
def likeMatch (pat s : List Char) : Bool :=
  likeFuel (pat.length + s.length) pat s

/-- One `column ILIKE '%' + q + '%'` test of the feed filter. -/
def rowLike (q s : List Char) : Bool :=
  likeMatch ('%' :: (q ++ ['%'])) s

/-! ## The feed pipeline (routes index and api_posts of app.py)

Both routes build `Post.query`, join `User` on the author, outer-join
`post_tags` and `Tag`, filter with the four ILIKE disjuncts, deduplicate
(`distinct()`), load everything, sort by `(score, created_at)` descending
(Python `list.sort` with `reverse=True`, a stable sort, modelled by the
stable `List.insertionSort` under the reversed lexicographic relation),
and slice `posts[start:end]` with Python slice semantics.  The two routes
duplicate this pipeline verbatim, so it is embedded twice. -/

/-- A post produces a row of the joined, filtered query: its author row
must exist for the inner join, and one of title, content, username, or an
associated tag name must match the pattern. -/
def postMatches (db : DB) (q : List Char) (p : Post) : Bool :=
  db.users.any (fun u => u.id == p.author_id &&
    (rowLike q p.title || rowLike q p.content || rowLike q u.username ||
      db.tags.any (fun t =>
        rowLike q t.name && db.post_tags.any (fun pt => pt.1 == p.id && pt.2 == t.id))))

/-- Python slice `l[i:j]` (step 1) with negative-index and clamping
semantics. -/
def pySlice {α : Type} (l : List α) (i j : Int) : List α :=
  let n : Int := l.length
  let i2 : Int := if i < 0 then max (i + n) 0 else min i n
  let j2 : Int := if j < 0 then max (j + n) 0 else min j n
  (l.take j2.toNat).drop i2.toNat

/-- The sort key comparison: `p1` may come before `p2` exactly when the
key `(score, created_at)` of `p2` is lexicographically at most that of
`p1` (descending sort). -/
def feedRel (db : DB) (p1 p2 : Post) : Prop :=
  score db p2 < score db p1 ∨
    (score db p2 = score db p1 ∧ p2.created_at ≤ p1.created_at)

instance instDecFeedRel (db : DB) : DecidableRel (feedRel db) := fun p1 p2 => by
  unfold feedRel
  infer_instance

instance instIsTotalFeedRel (db : DB) : IsTotal Post (feedRel db) := by
  constructor
  intro a b
  unfold feedRel
  omega

instance instIsTransFeedRel (db : DB) : IsTrans Post (feedRel db) := by
  constructor
  intro a b c h1 h2
  unfold feedRel at h1 h2 ⊢
  omega

/-- Route index: build and run the filtered query (`posts = query.all()`,
with `distinct()` deduplication: each stored post appears once). -/
def index_query (db : DB) (q : String) : List Post :=
  let qs := pyStrip q.toList
  if qs.isEmpty then db.posts else db.posts.filter (postMatches db qs)

/-- Route index: `posts.sort(key=lambda p: (p.score, p.created_at), reverse=True)`. -/
def index_sorted (db : DB) (q : String) : List Post :=
  List.insertionSort (feedRel db) (index_query db q)

/-- Route index: `page_posts = posts[start:end]`. -/
def index_page_posts (db : DB) (page per_page : Int) (q : String) : List Post :=
  pySlice (index_sorted db q) ((page - 1) * per_page) ((page - 1) * per_page + per_page)

/-- Route index: each rendered post carries `post.upvotes` and
`post.downvotes` recomputed from the vote table. -/
def index_page_items (db : DB) (page per_page : Int) (q : String) :
    List (Post × Nat × Nat) :=
  (index_page_posts db page per_page q).map
    (fun p => (p, upvoteCount db p.id, downvoteCount db p.id))

/-- Route api_posts: identical query construction. -/
def api_query (db : DB) (q : String) : List Post :=
  let qs := pyStrip q.toList
  if qs.isEmpty then db.posts else db.posts.filter (postMatches db qs)

/-- Route api_posts: identical sort. -/
def api_sorted (db : DB) (q : String) : List Post :=
  List.insertionSort (feedRel db) (api_query db q)

/-- Route api_posts: `page_items = posts[start:end]`. -/
def api_page_posts (db : DB) (page per_page : Int) (q : String) : List Post :=
  pySlice (api_sorted db q) ((page - 1) * per_page) ((page - 1) * per_page + per_page)

/-- Route api_posts: `has_more = end < len(posts)`. -/
def api_has_more (db : DB) (page per_page : Int) (q : String) : Bool :=
  decide ((page - 1) * per_page + per_page < ((api_sorted db q).length : Int))

/-! ## Hashtag extraction (HASHTAG_REGEX and extract_hashtags of app.py)

The regex is `(?<!&)#(\w+)`: a `#` not preceded by `&`, capturing the
maximal following run of word characters; finditer scans left to right
with non-overlapping matches.  The scan is embedded with a fuel argument
(`fuel ≥ length of the remaining text` always holds from the wrapper) so
that it is structurally recursive; the Boolean argument records whether
the previous character was `&`. -/

/-- ASCII `\w`: alphanumeric or underscore. -/
def isWordChar (c : Char) : Bool :=
  c.isAlphanum || c = '_'

def scanFuel : Nat → Bool → List Char → List (List Char)
  | _, _, [] => []
  | 0, _, _ :: _ => []
  | f + 1, amp, c :: cs =>
    if c = '#' && !amp then
      if (cs.takeWhile isWordChar).isEmpty then scanFuel f false cs
      else cs.takeWhile isWordChar :: scanFuel f false (cs.dropWhile isWordChar)
    else scanFuel f (c == '&') cs

/-- All capture groups of `(?<!&)#(\w+)` over the text, in match order. -/
def scanTags (amp : Bool) (s : List Char) : List (List Char) :=
  scanFuel s.length amp s

/-- `extract_hashtags`: empty text gives the empty set, otherwise the set
of lowercased capture groups. -/
def extract_hashtags (text : String) : Finset (List Char) :=
  if text = "" then ∅
  else ((scanTags false text.toList).map pyLower).toFinset

/-- The character standing right before a position: either the list
before it is empty and the virtual previous-was-`&` flag must be off, or
its last character is not `&`. -/
def lastOk (amp : Bool) (pre : List Char) : Prop :=
  (pre = [] ∧ amp = false) ∨ ∃ pre2 c, pre = pre2 ++ [c] ∧ c ≠ '&'

/-- Declarative reading of one regex match: the text splits as
`pre ++ '#' :: (w ++ post)` where `w` is a nonempty run of word
characters, `post` does not start with a word character (maximality), and
the character before the `#` is not `&`. -/
def tagDecomp (amp : Bool) (s w : List Char) : Prop :=
  ∃ pre post, s = pre ++ '#' :: (w ++ post) ∧ w ≠ [] ∧
    (∀ c ∈ w, isWordChar c = true) ∧
    (∀ d, post.head? = some d → isWordChar d = false) ∧
    lastOk amp pre

/-! ## Manual tags of a post submission (route post_new of app.py) -/

/-- `set(filter(None, [t.strip().lower().lstrip('#') for t in
tags_input.split(',')]))`. -/
def manualTags (tags_input : List Char) : Finset (List Char) :=
  (((splitComma tags_input).map (fun t => lstripHash (pyLower (pyStrip t)))).filter
    (fun t => !t.isEmpty)).toFinset

/-- The tag-name set post_new associates with a new post: manual tags
when the (stripped) tags field is nonempty, plus the hashtags of title
and content; the association loop skips empty names. -/
def post_new_tags (tags_input title content : String) : Finset (List Char) :=
  let ti := pyStrip tags_input.toList
  let tags := (if ti.isEmpty then ∅ else manualTags ti) ∪
    extract_hashtags title ∪ extract_hashtags content
  tags.filter (fun name => name ≠ [])

/-- Case-insensitive substring containment, the specified reading of
`column.ilike('%' + q + '%')` for wildcard-free `q`. -/
def ciSubstr (q s : List Char) : Prop :=
  pyLower q <:+: pyLower s

instance instDecCiSubstr (q s : List Char) : Decidable (ciSubstr q s) := by
  unfold ciSubstr
  infer_instance

/-! ## Concrete databases used for examples and witnesses -/

def postC9 : Post :=
  { id := 1, title := "abc".toList, content := "zzz".toList, author_id := 1, created_at := 0 }

/-- One post titled "abc" by user "alice", no tags. -/
def dbC9 : DB :=
  { users := [{ id := 1, username := "alice".toList }],
    posts := [postC9],
    tags := [], post_tags := [], votes := [] }

/-- One user, one post, no votes. -/
def dbC1 : DB :=
  { users := [{ id := 1, username := "alice".toList }],
    posts := [{ id := 1, title := "t".toList, content := "c".toList,
                author_id := 1, created_at := 0 }],
    tags := [], post_tags := [], votes := [] }

/-- Like dbC1 but with one existing upvote by user 1 on post 1. -/
def dbC2 : DB :=
  { dbC1 with votes := [{ id := 1, value := 1, user_id := 1, post_id := 1 }] }

def postA : Post :=
  { id := 1, title := "a".toList, content := "a".toList, author_id := 1, created_at := 10 }

def postB : Post :=
  { id := 2, title := "b".toList, content := "b".toList, author_id := 1, created_at := 20 }

def postC : Post :=
  { id := 3, title := "c".toList, content := "c".toList, author_id := 1, created_at := 30 }

/-- Posts A (score 5, older), B (score 5, newer), C (score 3, newest). -/
def dbC7 : DB :=
  { users := [{ id := 1, username := "alice".toList }],
    posts := [postA, postB, postC],
    tags := [], post_tags := [],
    votes :=
      (List.range 5).map (fun i => { id := i + 1, value := 1, user_id := i + 1, post_id := 1 }) ++
      (List.range 5).map (fun i => { id := i + 6, value := 1, user_id := i + 1, post_id := 2 }) ++
      (List.range 3).map (fun i => { id := i + 11, value := 1, user_id := i + 1, post_id := 3 }) }

/-- 25 posts, no votes, distinct creation times. -/
def db25 : DB :=
  { users := [{ id := 1, username := "alice".toList }],
    posts := (List.range 25).map (fun i =>
      { id := i + 1, title := "t".toList, content := "c".toList,
        author_id := 1, created_at := i }),
    tags := [], post_tags := [], votes := [] }

/-! ## Lemmas about the vote ledger -/

theorem mem_votesBy {db : DB} {u p : Nat} {v : Vote} :
    v ∈ votesBy db u p ↔ v ∈ db.votes ∧ v.user_id = u ∧ v.post_id = p := by
  simp [votesBy, List.mem_filter]

theorem votesBy_eq_singleton {db : DB} {u p : Nat} {v : Vote}
    (hpair : atMostOneVote db) (hv : v ∈ votesBy db u p) :
    votesBy db u p = [v] := by
  have hlen := hpair u p
  rcases h : votesBy db u p with _ | ⟨a, t⟩
  · rw [h] at hv; cases hv
  · rw [h] at hv hlen
    rcases t with _ | ⟨b, t⟩
    · simp only [List.mem_singleton] at hv
      rw [hv]
    · simp at hlen

theorem le_foldr_max {x : Nat} {l : List Nat} (hx : x ∈ l) :
    x ≤ l.foldr Nat.max 0 := by
  induction l with
  | nil => cases hx
  | cons a t ih =>
    rcases List.mem_cons.mp hx with rfl | hx
    · exact Nat.le_max_left _ _
    · exact le_trans (ih hx) (Nat.le_max_right _ _)

theorem freshVoteId_not_mem (db : DB) : freshVoteId db ∉ db.votes.map Vote.id := by
  intro hmem
  have h := le_foldr_max hmem
  unfold freshVoteId at h
  omega

theorem votesBy_votes_filter (db : DB) (q : Vote → Bool) (u p : Nat) :
    votesBy { db with votes := db.votes.filter q } u p = (votesBy db u p).filter q := by
  simp only [votesBy, List.filter_comm]

theorem votesBy_votes_map (db : DB) (g : Vote → Vote)
    (hg : ∀ w, (g w).user_id = w.user_id ∧ (g w).post_id = w.post_id) (u p : Nat) :
    votesBy { db with votes := db.votes.map g } u p = (votesBy db u p).map g := by
  simp only [votesBy, List.filter_map]
  congr 1
  apply List.filter_congr
  intro w _
  simp [Function.comp, (hg w).1, (hg w).2]

theorem votesBy_votes_append_single (db : DB) (nv : Vote) (u p : Nat) :
    votesBy { db with votes := db.votes ++ [nv] } u p =
      votesBy db u p ++ if nv.user_id = u ∧ nv.post_id = p then [nv] else [] := by
  simp only [votesBy, List.filter_append]
  congr 1
  simp only [List.filter_cons, List.filter_nil, Bool.and_eq_true, beq_iff_eq]

theorem castVote_eq_insert (db : DB) (uid pid : Nat) (value : Int)
    (hnil : votesBy db uid pid = []) :
    castVote db uid pid value =
      { db with votes := db.votes ++
          [{ id := freshVoteId db, value := value, user_id := uid, post_id := pid }] } := by
  unfold castVote
  split
  · rename_i v heq
    rw [hnil] at heq
    simp at heq
  · rfl

theorem castVote_eq_delete (db : DB) (uid pid : Nat) (value : Int) (v0 : Vote)
    (h : (votesBy db uid pid).head? = some v0) (hval : v0.value = value) :
    castVote db uid pid value =
      { db with votes := db.votes.filter (fun w => !(w.id == v0.id)) } := by
  unfold castVote
  split
  · rename_i v heq
    rw [h] at heq
    injection heq with heq
    subst heq
    rw [if_pos hval]
  · rename_i heq
    rw [h] at heq
    cases heq

theorem castVote_eq_update (db : DB) (uid pid : Nat) (value : Int) (v0 : Vote)
    (h : (votesBy db uid pid).head? = some v0) (hval : ¬ v0.value = value) :
    castVote db uid pid value =
      { db with votes :=
          db.votes.map (fun w => if w.id = v0.id then { w with value := value } else w) } := by
  unfold castVote
  split
  · rename_i v heq
    rw [h] at heq
    injection heq with heq
    subst heq
    rw [if_neg hval]
  · rename_i heq
    rw [h] at heq
    cases heq

theorem mem_of_head?_votesBy {db : DB} {uid pid : Nat} {v0 : Vote}
    (h : (votesBy db uid pid).head? = some v0) : v0 ∈ votesBy db uid pid := by
  rcases heq : votesBy db uid pid with _ | ⟨a, t⟩
  · rw [heq] at h; cases h
  · rw [heq] at h
    simp only [List.head?_cons, Option.some.injEq] at h
    rw [← h]
    exact List.mem_cons_self a t

/-- castVote never touches the rows of another (user, post) pair. -/
theorem castVote_votesBy_other (db : DB) (uid pid : Nat) (value : Int)
    (hids : voteIdsNodup db) (u p : Nat) (hup : ¬(u = uid ∧ p = pid)) :
    votesBy (castVote db uid pid value) u p = votesBy db u p := by
  rcases h : (votesBy db uid pid).head? with _ | v0
  · rw [castVote_eq_insert db uid pid value (List.head?_eq_none_iff.mp h),
      votesBy_votes_append_single]
    rw [if_neg (fun hc => hup ⟨hc.1.symm, hc.2.symm⟩), List.append_nil]
  · obtain ⟨hv0mem, hv0u, hv0p⟩ := mem_votesBy.mp (mem_of_head?_votesBy h)
    have hwid : ∀ w ∈ votesBy db u p, w.id ≠ v0.id := by
      intro w hw hid
      obtain ⟨hwmem, hwu, hwp⟩ := mem_votesBy.mp hw
      have hww : w = v0 := List.inj_on_of_nodup_map hids hwmem hv0mem hid
      subst hww
      exact hup ⟨hwu.symm.trans hv0u, hwp.symm.trans hv0p⟩
    by_cases hval : v0.value = value
    · rw [castVote_eq_delete db uid pid value v0 h hval, votesBy_votes_filter]
      apply List.filter_eq_self.mpr
      intro w hw
      simp [hwid w hw]
    · rw [castVote_eq_update db uid pid value v0 h hval,
        votesBy_votes_map db
          (fun w => if w.id = v0.id then { w with value := value } else w)
          (fun w => by by_cases hcw : w.id = v0.id <;> simp [hcw]) u p]
      apply (List.map_congr_left ?_).trans (List.map_id _)
      intro w hw
      simp [hwid w hw]

/-- castVote preserves the at-most-one-vote invariant, with no assumption
on primary keys. -/
theorem atMostOne_castVote (db : DB) (uid pid : Nat) (value : Int)
    (hpair : atMostOneVote db) : atMostOneVote (castVote db uid pid value) := by
  intro u p
  rcases h : (votesBy db uid pid).head? with _ | v0
  · have hnil := List.head?_eq_none_iff.mp h
    rw [castVote_eq_insert db uid pid value hnil, votesBy_votes_append_single]
    by_cases hc : uid = u ∧ pid = p
    · obtain ⟨rfl, rfl⟩ := hc
      rw [if_pos ⟨rfl, rfl⟩]
      simp [hnil]
    · rw [if_neg hc, List.append_nil]
      exact hpair u p
  · by_cases hval : v0.value = value
    · rw [castVote_eq_delete db uid pid value v0 h hval, votesBy_votes_filter]
      exact le_trans (List.length_filter_le _ _) (hpair u p)
    · rw [castVote_eq_update db uid pid value v0 h hval,
        votesBy_votes_map db
          (fun w => if w.id = v0.id then { w with value := value } else w)
          (fun w => by by_cases hcw : w.id = v0.id <;> simp [hcw]) u p]
      rw [List.length_map]
      exact hpair u p

theorem castVote_votesBy_same (db : DB) (uid pid : Nat) (value : Int) (v0 : Vote)
    (hpair : atMostOneVote db)
    (h : (votesBy db uid pid).head? = some v0) (hval : v0.value = value) :
    votesBy (castVote db uid pid value) uid pid = [] := by
  have hsingle := votesBy_eq_singleton hpair (mem_of_head?_votesBy h)
  rw [castVote_eq_delete db uid pid value v0 h hval, votesBy_votes_filter, hsingle]
  simp

theorem castVote_votesBy_flip (db : DB) (uid pid : Nat) (value : Int) (v0 : Vote)
    (hpair : atMostOneVote db)
    (h : (votesBy db uid pid).head? = some v0) (hval : ¬ v0.value = value) :
    votesBy (castVote db uid pid value) uid pid = [{ v0 with value := value }] := by
  have hsingle := votesBy_eq_singleton hpair (mem_of_head?_votesBy h)
  rw [castVote_eq_update db uid pid value v0 h hval,
    votesBy_votes_map db
      (fun w => if w.id = v0.id then { w with value := value } else w)
      (fun w => by by_cases hcw : w.id = v0.id <;> simp [hcw]) uid pid,
    hsingle]
  simp

theorem castVote_votesBy_new (db : DB) (uid pid : Nat) (value : Int)
    (hnil : votesBy db uid pid = []) :
    votesBy (castVote db uid pid value) uid pid =
      [{ id := freshVoteId db, value := value, user_id := uid, post_id := pid }] := by
  rw [castVote_eq_insert db uid pid value hnil, votesBy_votes_append_single, hnil]
  simp

theorem atMostOne_of_votes_length_le_one (db : DB) (h : db.votes.length ≤ 1) :
    atMostOneVote db :=
  fun _ _ => le_trans (List.length_filter_le _ _) h

/-! ## Claims C1, C2, C3 -/

/-- C1: the claim that every vote value outside +1 and -1 is rejected
with HTTP 400 and no recorded vote fails on the JSON transport: post_vote
maps any vote_type other than "up" and "down" to the value 0 and commits
a value-0 vote row, answering 200 with the counts; only the form
transport rejects out-of-range values with HTTP 400. -/
theorem c1_invalid_json_vote_recorded :
    post_vote dbC1 1 1 (.jsonBody (some "sideways".toList)) =
      (.ok 0 0, { dbC1 with votes := [{ id := 1, value := 0, user_id := 1, post_id := 1 }] }) ∧
    post_vote dbC1 1 1 (.formBody (some 5)) = (.badRequest, dbC1) ∧
    post_vote dbC1 1 1 (.formBody none) = (.badRequest, dbC1) := by
  decide

/-- C2: for a value in +1 or -1, castVote deletes an existing
equal-valued vote of the pair (toggle off), updates a differently valued
one in place keeping its row id (flip), inserts a fresh row when the pair
has none, leaves every other (user, post) pair untouched, and the handler
answers with the updated upvote and downvote counts of the post. -/
theorem c2_castVote_toggle_flip_create (db : DB) (uid pid : Nat) (value : Int)
    (hval : value = 1 ∨ value = -1)
    (hids : voteIdsNodup db) (hpair : atMostOneVote db) :
    ((∃ v ∈ db.votes, v.user_id = uid ∧ v.post_id = pid ∧ v.value = value) →
      votesBy (castVote db uid pid value) uid pid = []) ∧
    (∀ v ∈ db.votes, v.user_id = uid → v.post_id = pid → v.value ≠ value →
      votesBy (castVote db uid pid value) uid pid = [{ v with value := value }]) ∧
    (votesBy db uid pid = [] →
      votesBy (castVote db uid pid value) uid pid =
        [{ id := freshVoteId db, value := value, user_id := uid, post_id := pid }]) ∧
    (∀ u p, ¬(u = uid ∧ p = pid) →
      votesBy (castVote db uid pid value) u p = votesBy db u p) ∧
    post_vote db uid pid (.jsonBody (some (if value = 1 then "up".toList else "down".toList))) =
      (.ok (upvoteCount (castVote db uid pid value) pid)
           (downvoteCount (castVote db uid pid value) pid),
       castVote db uid pid value) := by
  refine ⟨?_, ?_, ?_, ?_, ?_⟩
  · rintro ⟨v, hv, hu, hp, hsame⟩
    have hmem : v ∈ votesBy db uid pid := mem_votesBy.mpr ⟨hv, hu, hp⟩
    have hhead : (votesBy db uid pid).head? = some v := by
      rw [votesBy_eq_singleton hpair hmem]; rfl
    exact castVote_votesBy_same db uid pid value v hpair hhead hsame
  · intro v hv hu hp hne
    have hmem : v ∈ votesBy db uid pid := mem_votesBy.mpr ⟨hv, hu, hp⟩
    have hhead : (votesBy db uid pid).head? = some v := by
      rw [votesBy_eq_singleton hpair hmem]; rfl
    exact castVote_votesBy_flip db uid pid value v hpair hhead hne
  · intro hnil
    exact castVote_votesBy_new db uid pid value hnil
  · intro u p hup
    exact castVote_votesBy_other db uid pid value hids u p hup
  · rcases hval with rfl | rfl
    · simp [post_vote]
    · have hne : ¬ (some ("down".toList) = some ("up".toList)) := by decide
      simp [post_vote, hne]

theorem c2_witness :
    votesBy (castVote dbC2 1 1 (-1)) 1 1 =
      [{ id := 1, value := -1, user_id := 1, post_id := 1 }] :=
  (c2_castVote_toggle_flip_create dbC2 1 1 (-1) (Or.inr rfl)
      (by unfold voteIdsNodup; decide)
      (atMostOne_of_votes_length_le_one dbC2 (by decide))).2.1
    { id := 1, value := 1, user_id := 1, post_id := 1 } (by decide) rfl rfl (by decide)

/-- C3: starting from a state where every (user, post) pair has at most
one vote row, any sequence of castVote operations preserves that bound,
so flipping by casting opposite values never duplicates a row. -/
theorem c3_at_most_one_vote_preserved (db : DB) (ops : List (Nat × Nat × Int))
    (hpair : atMostOneVote db) : atMostOneVote (applyVotes db ops) := by
  induction ops generalizing db with
  | nil => exact hpair
  | cons op rest ih =>
    show atMostOneVote (applyVotes (castVote db op.1 op.2.1 op.2.2) rest)
    exact ih _ (atMostOne_castVote db op.1 op.2.1 op.2.2 hpair)

theorem c3_witness :
    atMostOneVote (applyVotes dbC1 [(1, 1, (1 : Int)), (1, 1, (-1 : Int))]) :=
  c3_at_most_one_vote_preserved dbC1 _
    (atMostOne_of_votes_length_le_one dbC1 (by decide))

/-! ## Claims C4, C7, C8, C10 -/

/-- C4: a post's score is the sum of the values of its vote rows (so 0
with no votes), the upvote and downvote counts are the counts of its +1
and -1 votes, the HTML feed attaches exactly these counts to each item,
and every successful vote response carries them for the committed
state. -/
theorem c4_score_and_counts (db : DB) (p : Post) :
    score db p = ((votesFor db p.id).map Vote.value).sum ∧
    upvoteCount db p.id = ((votesFor db p.id).filter (fun v => v.value == 1)).length ∧
    downvoteCount db p.id = ((votesFor db p.id).filter (fun v => v.value == -1)).length ∧
    (∀ page per_page q, index_page_items db page per_page q =
      (index_page_posts db page per_page q).map
        (fun x => (x, upvoteCount db x.id, downvoteCount db x.id))) ∧
    (∀ uid pid req,
      (post_vote db uid pid req).1 = VoteResponse.badRequest ∨
      (post_vote db uid pid req).1 =
        VoteResponse.ok (upvoteCount (post_vote db uid pid req).2 pid)
          (downvoteCount (post_vote db uid pid req).2 pid)) := by
  refine ⟨?_, ?_, ?_, fun page per_page q => rfl, ?_⟩
  · unfold score
    by_cases h : (votesFor db p.id).isEmpty
    · rw [if_pos h]
      rw [List.isEmpty_iff] at h
      rw [h]
      rfl
    · rw [if_neg h]
  · unfold upvoteCount votesFor
    rw [List.filter_filter]
    congr 1
    apply List.filter_congr
    intro v _
    rw [Bool.and_comm]
  · unfold downvoteCount votesFor
    rw [List.filter_filter]
    congr 1
    apply List.filter_congr
    intro v _
    rw [Bool.and_comm]
  · intro uid pid req
    rcases req with vt | v
    · right; rfl
    · rcases v with _ | v
      · left; rfl
      · by_cases hv : v = 1 ∨ v = -1
        · right
          simp only [post_vote, if_pos hv]
        · left
          simp only [post_vote, if_neg hv]

/-- C7: the feed ordering is a permutation of the filtered posts that is
sorted by score descending with ties broken by creation time descending;
for posts A(score 5, older), B(score 5, newer), C(score 3, newest) the
returned order is B, A, C. -/
theorem c7_feed_ordering :
    (∀ (db : DB) (q : String),
      (api_sorted db q).Perm (api_query db q) ∧
      List.Sorted (feedRel db) (api_sorted db q)) ∧
    api_sorted dbC7 "" = [postB, postA, postC] := by
  constructor
  · intro db q
    exact ⟨List.perm_insertionSort (feedRel db) (api_query db q),
      List.sorted_insertionSort (feedRel db) (api_query db q)⟩
  · decide

theorem take_min_of_length_le {α : Type} (l : List α) (a n : Nat) (h : l.length ≤ n) :
    l.take (min a n) = l.take a := by
  rcases le_total a n with hc | hc
  · rw [min_eq_left hc]
  · rw [min_eq_right hc, List.take_of_length_le h, List.take_of_length_le (le_trans h hc)]

theorem drop_min_of_length_le {α : Type} (l : List α) (a n : Nat) (h : l.length ≤ n) :
    l.drop (min a n) = l.drop a := by
  rcases le_total a n with hc | hc
  · rw [min_eq_left hc]
  · rw [min_eq_right hc, List.drop_eq_nil_of_le h, List.drop_eq_nil_of_le (le_trans h hc)]

/-- C8: with a 1-based page and a nonnegative page size, the JSON feed
page is exactly the slice [(page-1)*per_page, page*per_page) of the
ordered filtered posts, and has_more holds exactly when the slice end is
strictly below the total count. -/
theorem c8_pagination (db : DB) (page per_page : Int) (q : String)
    (hpage : 1 ≤ page) (hpp : 0 ≤ per_page) :
    api_page_posts db page per_page q =
      ((api_sorted db q).take (page * per_page).toNat).drop
        (((page - 1) * per_page).toNat) ∧
    (api_has_more db page per_page q = true ↔
      page * per_page < ((api_sorted db q).length : Int)) := by
  have hi0 : 0 ≤ (page - 1) * per_page := mul_nonneg (by omega) hpp
  have hj0 : 0 ≤ (page - 1) * per_page + per_page := add_nonneg hi0 hpp
  have hring : (page - 1) * per_page + per_page = page * per_page := by ring
  constructor
  · simp only [api_page_posts, pySlice]
    rw [if_neg (not_lt.mpr hi0), if_neg (not_lt.mpr hj0)]
    rw [show (min ((page - 1) * per_page + per_page) ((api_sorted db q).length : Int)).toNat
        = min ((page - 1) * per_page + per_page).toNat (api_sorted db q).length by omega]
    rw [show (min ((page - 1) * per_page) ((api_sorted db q).length : Int)).toNat
        = min ((page - 1) * per_page).toNat (api_sorted db q).length by omega]
    rw [take_min_of_length_le _ _ _ le_rfl]
    rw [drop_min_of_length_le _ _ _
      (by rw [List.length_take]; exact min_le_right _ _)]
    rw [show ((page - 1) * per_page + per_page).toNat = (page * per_page).toNat by rw [hring]]
  · simp only [api_has_more, decide_eq_true_eq]
    rw [hring]

theorem c8_witness :
    api_page_posts db25 1 10 "" = ((api_sorted db25 "").take 10).drop 0 ∧
    (api_has_more db25 1 10 "" = true ↔ (10 : Int) < ((api_sorted db25 "").length : Int)) ∧
    (api_page_posts db25 1 10 "").length = 10 ∧ api_has_more db25 1 10 "" = true ∧
    (api_page_posts db25 3 10 "").length = 5 ∧ api_has_more db25 3 10 "" = false := by
  have h := c8_pagination db25 1 10 "" (by norm_num) (by norm_num)
  refine ⟨?_, ?_, by decide, by decide, by decide, by decide⟩
  · simpa using h.1
  · simpa using h.2

/-! ## Lemmas about the hashtag scanner -/

theorem scanFuel_congr (f : Nat) : ∀ (g : Nat) (amp : Bool) (s : List Char),
    s.length ≤ f → s.length ≤ g → scanFuel f amp s = scanFuel g amp s := by
  induction f with
  | zero =>
    intro g amp s hf _
    have hs : s = [] := List.length_eq_zero.mp (Nat.le_zero.mp hf)
    subst hs
    cases g <;> simp [scanFuel]
  | succ f ih =>
    intro g amp s hf hg
    cases s with
    | nil => cases g <;> simp [scanFuel]
    | cons c cs =>
      cases g with
      | zero => simp at hg
      | succ g =>
        have hf2 : cs.length ≤ f := by simp at hf; omega
        have hg2 : cs.length ≤ g := by simp at hg; omega
        have hd : (cs.dropWhile isWordChar).length ≤ cs.length :=
          (List.dropWhile_sublist _).length_le
        simp only [scanFuel]
        by_cases hc : (c = '#' && !amp) = true
        · rw [if_pos hc, if_pos hc]
          by_cases hrun : (cs.takeWhile isWordChar).isEmpty = true
          · rw [if_pos hrun, if_pos hrun]
            exact ih g false cs hf2 hg2
          · rw [if_neg hrun, if_neg hrun]
            rw [ih g false (cs.dropWhile isWordChar) (le_trans hd hf2) (le_trans hd hg2)]
        · rw [if_neg hc, if_neg hc]
          exact ih g (c == '&') cs hf2 hg2

theorem scanTags_nil (amp : Bool) : scanTags amp [] = [] := rfl

theorem scanTags_cons (amp : Bool) (c : Char) (cs : List Char) :
    scanTags amp (c :: cs) =
      if c = '#' && !amp then
        if (cs.takeWhile isWordChar).isEmpty then scanTags false cs
        else cs.takeWhile isWordChar :: scanTags false (cs.dropWhile isWordChar)
      else scanTags (c == '&') cs := by
  show scanFuel (c :: cs).length amp (c :: cs) = _
  have hd : (cs.dropWhile isWordChar).length ≤ cs.length :=
    (List.dropWhile_sublist _).length_le
  simp only [List.length_cons, scanFuel]
  rw [scanFuel_congr cs.length (cs.dropWhile isWordChar).length false
    (cs.dropWhile isWordChar) hd le_rfl]
  rfl

theorem lastOk_cons (amp : Bool) (c : Char) (pre : List Char) :
    lastOk amp (c :: pre) ↔ lastOk (c == '&') pre := by
  constructor
  · rintro (⟨habs, -⟩ | ⟨pre2, d, heq, hd⟩)
    · cases habs
    · cases pre2 with
      | nil =>
        simp only [List.nil_append, List.cons.injEq] at heq
        obtain ⟨rfl, rfl⟩ := heq
        left
        exact ⟨rfl, by simpa using hd⟩
      | cons e pre2 =>
        simp only [List.cons_append, List.cons.injEq] at heq
        obtain ⟨rfl, rfl⟩ := heq
        right
        exact ⟨pre2, d, rfl, hd⟩
  · rintro (⟨rfl, hamp⟩ | ⟨pre2, d, rfl, hd⟩)
    · right
      exact ⟨[], c, rfl, by simpa using hamp⟩
    · right
      exact ⟨c :: pre2, d, rfl, hd⟩

theorem head?_dropWhile_not (p : Char → Bool) :
    ∀ (l : List Char) (d : Char), (l.dropWhile p).head? = some d → p d = false := by
  intro l
  induction l with
  | nil => intro d h; cases h
  | cons c cs ih =>
    intro d h
    by_cases hc : p c = true
    · rw [List.dropWhile_cons_of_pos hc] at h
      exact ih d h
    · rw [List.dropWhile_cons_of_neg hc] at h
      simp only [List.head?_cons, Option.some.injEq] at h
      subst h
      exact Bool.eq_false_iff.mpr hc

theorem takeWhile_maximal_unique (p : Char → Bool) :
    ∀ (w post : List Char), (∀ c ∈ w, p c = true) →
      (∀ d, post.head? = some d → p d = false) →
      w = (w ++ post).takeWhile p ∧ post = (w ++ post).dropWhile p := by
  intro w
  induction w with
  | nil =>
    intro post hw hpost
    simp only [List.nil_append]
    cases post with
    | nil => exact ⟨rfl, rfl⟩
    | cons d post2 =>
      have hd : p d = false := hpost d rfl
      rw [List.takeWhile_cons_of_neg (by simp [hd]), List.dropWhile_cons_of_neg (by simp [hd])]
      exact ⟨rfl, rfl⟩
  | cons a w2 ih =>
    intro post hw hpost
    have ha : p a = true := hw a (List.mem_cons_self a w2)
    rw [List.cons_append, List.takeWhile_cons_of_pos ha, List.dropWhile_cons_of_pos ha]
    obtain ⟨h1, h2⟩ := ih post (fun c hc => hw c (List.mem_cons_of_mem a hc)) hpost
    exact ⟨by rw [← h1], h2⟩

theorem split_at_stop (p : Char → Bool) :
    ∀ (xs : List Char) (a : Char) (ys : List Char), p a = false →
      ∃ m, xs = (xs ++ a :: ys).takeWhile p ++ m ∧
        (xs ++ a :: ys).dropWhile p = m ++ a :: ys := by
  intro xs
  induction xs with
  | nil =>
    intro a ys ha
    refine ⟨[], ?_, ?_⟩
    · rw [List.nil_append, List.takeWhile_cons_of_neg (by simp [ha])]
      rfl
    · rw [List.nil_append, List.dropWhile_cons_of_neg (by simp [ha])]
  | cons c xs2 ih =>
    intro a ys ha
    by_cases hc : p c = true
    · obtain ⟨m, h1, h2⟩ := ih a ys ha
      refine ⟨m, ?_, ?_⟩
      · rw [List.cons_append, List.takeWhile_cons_of_pos hc, List.cons_append]
        rw [← h1]
      · rw [List.cons_append, List.dropWhile_cons_of_pos hc]
        exact h2
    · refine ⟨c :: xs2, ?_, ?_⟩
      · rw [List.cons_append, List.takeWhile_cons_of_neg hc]
        rfl
      · rw [List.cons_append, List.dropWhile_cons_of_neg hc]

theorem isWordChar_ne_amp {c : Char} (h : isWordChar c = true) : c ≠ '&' := by
  intro hc
  subst hc
  exact absurd h (by decide)

theorem lastOk_append_word {run m : List Char} (hrun : run ≠ [])
    (hword : ∀ c ∈ run, isWordChar c = true) (hm : lastOk false m) :
    lastOk false (run ++ m) := by
  rcases hm with ⟨rfl, -⟩ | ⟨m2, d, rfl, hd⟩
  · rcases List.eq_nil_or_concat run with rfl | ⟨r2, d, rfl⟩
    · exact absurd rfl hrun
    · right
      refine ⟨r2, d, by simp [List.concat_eq_append], ?_⟩
      exact isWordChar_ne_amp (hword d (by simp [List.concat_eq_append]))
  · right
    exact ⟨run ++ m2, d, by simp, hd⟩

theorem lastOk_of_append_word {run m : List Char}
    (hword : ∀ c ∈ run, isWordChar c = true) (h : lastOk false (run ++ m)) :
    lastOk false m := by
  rcases List.eq_nil_or_concat m with rfl | ⟨m2, d, rfl⟩
  · exact Or.inl ⟨rfl, rfl⟩
  · rcases h with ⟨habs, -⟩ | ⟨pre2, e, heq, he⟩
    · rcases run with _ | ⟨r, rs⟩ <;> simp [List.concat_eq_append] at habs
    · right
      refine ⟨m2, d, by rw [List.concat_eq_append], ?_⟩
      have heq2 : (run ++ m2) ++ [d] = pre2 ++ [e] := by
        rw [List.concat_eq_append] at heq
        rw [List.append_assoc]
        exact heq
      have := (List.append_inj' heq2 rfl).2
      simp only [List.cons.injEq] at this
      rw [this.1]
      exact he

theorem tagDecomp_skip (amp : Bool) (c : Char) (cs w : List Char)
    (hnc : ¬ (c = '#' ∧ amp = false)) :
    tagDecomp amp (c :: cs) w ↔ tagDecomp (c == '&') cs w := by
  constructor
  · rintro ⟨pre, post, heq, hw, hword, hpost, hlast⟩
    cases pre with
    | nil =>
      simp only [List.nil_append, List.cons.injEq] at heq
      obtain ⟨rfl, -⟩ := heq
      rcases hlast with ⟨-, hampf⟩ | ⟨pre2, d, habs, -⟩
      · exact absurd ⟨rfl, hampf⟩ hnc
      · cases pre2 <;> simp at habs
    | cons e pre =>
      simp only [List.cons_append, List.cons.injEq] at heq
      obtain ⟨rfl, hcs⟩ := heq
      exact ⟨pre, post, hcs, hw, hword, hpost, (lastOk_cons amp c pre).mp hlast⟩
  · rintro ⟨pre, post, heq, hw, hword, hpost, hlast⟩
    exact ⟨c :: pre, post, by rw [List.cons_append, heq], hw, hword, hpost,
      (lastOk_cons amp c pre).mpr hlast⟩

theorem tagDecomp_hash_empty (cs w : List Char)
    (hrun : cs.takeWhile isWordChar = []) :
    tagDecomp false ('#' :: cs) w ↔ tagDecomp false cs w := by
  constructor
  · rintro ⟨pre, post, heq, hw, hword, hpost, hlast⟩
    cases pre with
    | nil =>
      simp only [List.nil_append, List.cons.injEq] at heq
      obtain ⟨-, hcs⟩ := heq
      exfalso
      cases w with
      | nil => exact hw rfl
      | cons a w2 =>
        have ha : isWordChar a = true := hword a (List.mem_cons_self _ _)
        rw [hcs, List.cons_append, List.takeWhile_cons_of_pos ha] at hrun
        cases hrun
    | cons e pre =>
      simp only [List.cons_append, List.cons.injEq] at heq
      obtain ⟨rfl, hcs⟩ := heq
      refine ⟨pre, post, hcs, hw, hword, hpost, ?_⟩
      exact (lastOk_cons false '#' pre).mp hlast
  · rintro ⟨pre, post, heq, hw, hword, hpost, hlast⟩
    refine ⟨'#' :: pre, post, by rw [List.cons_append, heq], hw, hword, hpost, ?_⟩
    exact (lastOk_cons false '#' pre).mpr hlast

theorem tagDecomp_hash_run (cs w : List Char)
    (hrun : ¬ cs.takeWhile isWordChar = []) :
    tagDecomp false ('#' :: cs) w ↔
      (w = cs.takeWhile isWordChar ∨ tagDecomp false (cs.dropWhile isWordChar) w) := by
  constructor
  · rintro ⟨pre, post, heq, hw, hword, hpost, hlast⟩
    cases pre with
    | nil =>
      left
      simp only [List.nil_append, List.cons.injEq] at heq
      obtain ⟨-, hcs⟩ := heq
      rw [hcs]
      exact (takeWhile_maximal_unique isWordChar w post hword hpost).1
    | cons e pre =>
      right
      simp only [List.cons_append, List.cons.injEq] at heq
      obtain ⟨rfl, hcs⟩ := heq
      obtain ⟨m, hm1, hm2⟩ := split_at_stop isWordChar pre '#' (w ++ post) (by decide)
      refine ⟨m, post, ?_, hw, hword, hpost, ?_⟩
      · rw [hcs]
        exact hm2
      · have h2 : lastOk false pre := (lastOk_cons false '#' pre).mp hlast
        rw [hm1] at h2
        exact lastOk_of_append_word (fun c hc => List.mem_takeWhile_imp hc) h2
  · rintro (rfl | ⟨pre, post, heq, hw, hword, hpost, hlast⟩)
    · refine ⟨[], cs.dropWhile isWordChar, ?_, hrun, ?_, ?_, Or.inl ⟨rfl, rfl⟩⟩
      · rw [List.nil_append, List.takeWhile_append_dropWhile]
      · exact fun c hc => List.mem_takeWhile_imp hc
      · exact fun d hd => head?_dropWhile_not isWordChar cs d hd
    · refine ⟨'#' :: (cs.takeWhile isWordChar ++ pre), post, ?_, hw, hword, hpost, ?_⟩
      · rw [List.cons_append]
        congr 1
        rw [List.append_assoc, ← heq, List.takeWhile_append_dropWhile]
      · apply (lastOk_cons false '#' _).mpr
        exact lastOk_append_word hrun (fun c hc => List.mem_takeWhile_imp hc) hlast

theorem mem_scanTags_aux (n : Nat) : ∀ (s : List Char), s.length ≤ n →
    ∀ (amp : Bool) (w : List Char), (w ∈ scanTags amp s ↔ tagDecomp amp s w) := by
  induction n with
  | zero =>
    intro s hs amp w
    have hnil : s = [] := List.length_eq_zero.mp (Nat.le_zero.mp hs)
    subst hnil
    rw [scanTags_nil]
    constructor
    · intro h; cases h
    · rintro ⟨pre, post, heq, -, -, -, -⟩
      cases pre <;> simp at heq
  | succ n ih =>
    intro s hs amp w
    cases s with
    | nil =>
      rw [scanTags_nil]
      constructor
      · intro h; cases h
      · rintro ⟨pre, post, heq, -, -, -, -⟩
        cases pre <;> simp at heq
    | cons c cs =>
      have hcs : cs.length ≤ n := by simp at hs; omega
      have hdw : (cs.dropWhile isWordChar).length ≤ n :=
        le_trans (List.dropWhile_sublist _).length_le hcs
      rw [scanTags_cons]
      by_cases hc : c = '#' ∧ amp = false
      · obtain ⟨rfl, rfl⟩ := hc
        have hcond : (decide (('#' : Char) = '#') && !false) = true := by decide
        rw [if_pos hcond]
        by_cases hrun : (cs.takeWhile isWordChar).isEmpty = true
        · rw [if_pos hrun]
          rw [ih cs hcs false w]
          exact (tagDecomp_hash_empty cs w (List.isEmpty_iff.mp hrun)).symm
        · rw [if_neg hrun]
          have hrun2 : ¬ cs.takeWhile isWordChar = [] := fun h => hrun (by rw [h]; rfl)
          rw [List.mem_cons]
          rw [ih (cs.dropWhile isWordChar) hdw false w]
          exact (tagDecomp_hash_run cs w hrun2).symm
      · have hcond : ¬ ((decide (c = '#') && !amp) = true) := by
          simp only [Bool.and_eq_true, decide_eq_true_eq, Bool.not_eq_true']
          exact hc
        rw [if_neg hcond]
        rw [ih cs hcs (c == '&') w]
        exact (tagDecomp_skip amp c cs w hc).symm

theorem mem_scanTags (amp : Bool) (s w : List Char) :
    w ∈ scanTags amp s ↔ tagDecomp amp s w :=
  mem_scanTags_aux s.length s le_rfl amp w

theorem mem_extract_hashtags (text : String) (t : List Char) :
    t ∈ extract_hashtags text ↔ ∃ w, tagDecomp false text.toList w ∧ t = pyLower w := by
  unfold extract_hashtags
  by_cases h : text = ""
  · rw [if_pos h]
    subst h
    constructor
    · intro hmem
      exact absurd hmem (Finset.not_mem_empty t)
    · rintro ⟨w, ⟨pre, post, heq, -, -, -, -⟩, -⟩
      rw [show ("" : String).toList = [] from rfl] at heq
      cases pre <;> simp at heq
  · rw [if_neg h, List.mem_toFinset, List.mem_map]
    constructor
    · rintro ⟨w, hw, rfl⟩
      exact ⟨w, (mem_scanTags false text.toList w).mp hw, rfl⟩
    · rintro ⟨w, hdec, rfl⟩
      exact ⟨w, (mem_scanTags false text.toList w).mpr hdec, rfl⟩

/-- C5: hashtag extraction returns exactly the lowercased maximal word
character runs preceded by a regex match of a hash sign not preceded by
an ampersand; "Loving #OpenSource and #openSource today" yields the tag
set containing just "opensource", and "&#39;" yields no tag. -/
theorem c5_hashtag_extraction :
    (∀ (text : String) (t : List Char),
      t ∈ extract_hashtags text ↔ ∃ w, tagDecomp false text.toList w ∧ t = pyLower w) ∧
    extract_hashtags "Loving #OpenSource and #openSource today" = {"opensource".toList} ∧
    extract_hashtags "&#39;" = ∅ := by
  refine ⟨mem_extract_hashtags, by decide, by decide⟩

/-! ## Claim C6 -/

/-- C6 fails as stated: the code strips every leading hash sign of a
manual tag (Python lstrip), not a single one; on the manual tag string
"##x" the resulting tag is "x", while the single-strip reading yields
"#x". -/
theorem c6_counterexample :
    "x".toList ∈ post_new_tags "##x" "hello" "world" ∧
    "#x".toList ∉ post_new_tags "##x" "hello" "world" := by
  decide

/-- C6 (amended): a tag belongs to a submission exactly when it arises
from a comma chunk of the manual tag string by stripping whitespace,
lowercasing and stripping all leading hash signs, or is a hashtag of the
title or of the content -- empty results dropped. -/
theorem c6_effective_tags (tags_input title content : String) (t : List Char) :
    t ∈ post_new_tags tags_input title content ↔
      ((∃ chunk ∈ splitComma (pyStrip tags_input.toList),
          t = lstripHash (pyLower (pyStrip chunk))) ∨
        t ∈ extract_hashtags title ∨ t ∈ extract_hashtags content) ∧ t ≠ [] := by
  simp only [post_new_tags, Finset.mem_filter, Finset.mem_union]
  constructor
  · rintro ⟨hmem, hne⟩
    refine ⟨?_, hne⟩
    rcases hmem with (hm | h1) | h2
    · left
      by_cases hti : (pyStrip tags_input.toList).isEmpty = true
      · rw [if_pos hti] at hm
        exact absurd hm (Finset.not_mem_empty t)
      · rw [if_neg hti] at hm
        unfold manualTags at hm
        rw [List.mem_toFinset, List.mem_filter] at hm
        obtain ⟨hmap, -⟩ := hm
        rw [List.mem_map] at hmap
        obtain ⟨chunk, hchunk, heq⟩ := hmap
        exact ⟨chunk, hchunk, heq.symm⟩
    · right; left; exact h1
    · right; right; exact h2
  · rintro ⟨hdisj, hne⟩
    refine ⟨?_, hne⟩
    rcases hdisj with ⟨chunk, hchunk, rfl⟩ | h1 | h2
    · left
      left
      have hti : ¬ (pyStrip tags_input.toList).isEmpty = true := by
        intro hempty
        rw [List.isEmpty_iff] at hempty
        rw [hempty] at hchunk
        simp only [splitComma, List.mem_singleton] at hchunk
        subst hchunk
        exact hne rfl
      rw [if_neg hti]
      unfold manualTags
      rw [List.mem_toFinset, List.mem_filter]
      refine ⟨?_, ?_⟩
      · rw [List.mem_map]
        exact ⟨chunk, hchunk, rfl⟩
      · simp only [Bool.not_eq_true', List.isEmpty_iff, List.isEmpty_eq_false]
        exact hne
    · left; right; exact h1
    · right; exact h2

/-! ## Lemmas about LIKE matching -/

theorem likeFuel_congr (f : Nat) : ∀ (g : Nat) (p s : List Char),
    p.length + s.length ≤ f → p.length + s.length ≤ g →
    likeFuel f p s = likeFuel g p s := by
  induction f with
  | zero =>
    intro g p s hf _
    have hp : p = [] := by
      cases p with
      | nil => rfl
      | cons c ps => simp [List.length_cons] at hf
    subst hp
    cases g <;> simp [likeFuel]
  | succ f ih =>
    intro g p s hf hg
    cases p with
    | nil => cases g <;> simp [likeFuel]
    | cons c ps =>
      cases g with
      | zero => simp [List.length_cons] at hg
      | succ g =>
        simp only [List.length_cons] at hf hg
        simp only [likeFuel]
        by_cases hc : c = '%'
        · rw [if_pos hc, if_pos hc]
          congr 1
          · exact ih g ps s (by omega) (by omega)
          · cases s with
            | nil => rfl
            | cons d s2 =>
              simp only [List.length_cons] at hf hg
              exact ih g (c :: ps) s2
                (by simp only [List.length_cons]; omega) (by simp only [List.length_cons]; omega)
        · rw [if_neg hc, if_neg hc]
          cases s with
          | nil => rfl
          | cons d s2 =>
            simp only [List.length_cons] at hf hg
            show ((c = '_' || c.toLower = d.toLower) && likeFuel f ps s2) =
              ((c = '_' || c.toLower = d.toLower) && likeFuel g ps s2)
            rw [ih g ps s2 (by omega) (by omega)]

theorem likeFuel_eq_likeMatch (f : Nat) (p s : List Char) (h : p.length + s.length ≤ f) :
    likeFuel f p s = likeMatch p s :=
  likeFuel_congr f (p.length + s.length) p s h le_rfl

theorem likeMatch_nil_pat (s : List Char) : likeMatch [] s = s.isEmpty := by
  simp [likeMatch, likeFuel]

theorem likeMatch_pct (ps s : List Char) :
    likeMatch ('%' :: ps) s =
      (likeMatch ps s ||
        (match s with | [] => false | _ :: s2 => likeMatch ('%' :: ps) s2)) := by
  have h : ('%' :: ps).length + s.length = (ps.length + s.length) + 1 := by
    simp [List.length_cons]
    omega
  unfold likeMatch
  rw [h]
  simp only [likeFuel]
  rw [if_pos trivial]
  cases s with
  | nil => rfl
  | cons d s2 =>
    congr 1
    exact likeFuel_congr (ps.length + (d :: s2).length) (('%' :: ps).length + s2.length)
      ('%' :: ps) s2 (by simp only [List.length_cons]; omega)
      (by simp only [List.length_cons]; omega)

theorem likeMatch_lit (c : Char) (ps s : List Char) (hc : ¬ c = '%') :
    likeMatch (c :: ps) s =
      (match s with
       | [] => false
       | d :: s2 => (c = '_' || c.toLower = d.toLower) && likeMatch ps s2) := by
  have h : (c :: ps).length + s.length = (ps.length + s.length) + 1 := by
    simp [List.length_cons]
    omega
  unfold likeMatch
  rw [h]
  simp only [likeFuel]
  rw [if_neg hc]
  cases s with
  | nil => rfl
  | cons d s2 =>
    show ((c = '_' || c.toLower = d.toLower) && likeFuel (ps.length + (d :: s2).length) ps s2) =
      ((c = '_' || c.toLower = d.toLower) && likeFuel (ps.length + s2.length) ps s2)
    rw [likeFuel_congr (ps.length + (d :: s2).length) (ps.length + s2.length) ps s2
      (by simp only [List.length_cons]; omega) le_rfl]

theorem likeMatch_pct_iff (ps s : List Char) :
    likeMatch ('%' :: ps) s = true ↔ ∃ s2, s2 <:+ s ∧ likeMatch ps s2 = true := by
  induction s with
  | nil =>
    rw [likeMatch_pct]
    simp only [Bool.or_eq_true]
    constructor
    · rintro (h | h)
      · exact ⟨[], List.suffix_refl [], h⟩
      · exact absurd h (by simp)
    · rintro ⟨s2, hs2, h⟩
      left
      have hs2n : s2 = [] := List.suffix_nil.mp hs2
      subst hs2n
      exact h
  | cons d s1 ih =>
    rw [likeMatch_pct]
    simp only [Bool.or_eq_true]
    constructor
    · rintro (h | h)
      · exact ⟨d :: s1, List.suffix_refl _, h⟩
      · obtain ⟨s2, hs2, hm⟩ := ih.mp h
        exact ⟨s2, hs2.trans (List.suffix_cons d s1), hm⟩
    · rintro ⟨s2, hs2, hm⟩
      rcases List.suffix_cons_iff.mp hs2 with rfl | hs3
      · left
        exact hm
      · right
        exact ih.mpr ⟨s2, hs3, hm⟩

theorem likeMatch_pct_only (s : List Char) : likeMatch ['%'] s = true := by
  induction s with
  | nil => decide
  | cons d s2 ih =>
    rw [likeMatch_pct]
    simp only [Bool.or_eq_true]
    right
    exact ih

theorem likeMatch_lit_run (q : List Char) (hq : ∀ c ∈ q, c ≠ '%' ∧ c ≠ '_') :
    ∀ (ps s : List Char),
      (likeMatch (q ++ ps) s = true ↔
        ∃ s1 s2, s = s1 ++ s2 ∧ pyLower s1 = pyLower q ∧ likeMatch ps s2 = true) := by
  induction q with
  | nil =>
    intro ps s
    simp only [List.nil_append]
    constructor
    · intro h
      exact ⟨[], s, rfl, rfl, h⟩
    · rintro ⟨s1, s2, rfl, h1, h⟩
      have hs1 : s1 = [] := by
        have hl := congrArg List.length h1
        simp only [pyLower, List.length_map, List.length_nil] at hl
        exact List.length_eq_zero.mp hl
      subst hs1
      exact h
  | cons c q2 ih =>
    intro ps s
    have hc := hq c (List.mem_cons_self _ _)
    have hq2 : ∀ d ∈ q2, d ≠ '%' ∧ d ≠ '_' := fun d hd => hq d (List.mem_cons_of_mem c hd)
    rw [List.cons_append, likeMatch_lit c (q2 ++ ps) s hc.1]
    cases s with
    | nil =>
      constructor
      · intro h
        exact absurd h (by simp)
      · rintro ⟨s1, s2, habs, h1, h⟩
        obtain ⟨rfl, -⟩ := List.append_eq_nil.mp habs.symm
        have hl := congrArg List.length h1
        simp [pyLower, List.length_cons] at hl
    | cons d s1 =>
      simp only [Bool.and_eq_true]
      constructor
      · rintro ⟨hcd, hrest⟩
        obtain ⟨t1, t2, rfl, h1, h⟩ := (ih hq2 ps s1).mp hrest
        refine ⟨d :: t1, t2, rfl, ?_, h⟩
        simp only [pyLower, List.map_cons, List.cons.injEq]
        refine ⟨?_, h1⟩
        simp only [Bool.or_eq_true, decide_eq_true_eq] at hcd
        rcases hcd with hcd | hcd
        · exact absurd hcd hc.2
        · exact hcd.symm
      · rintro ⟨s1x, s2, heq, h1, h⟩
        cases s1x with
        | nil =>
          have hl := congrArg List.length h1
          simp [pyLower, List.length_cons] at hl
        | cons e t1 =>
          simp only [List.cons_append, List.cons.injEq] at heq
          obtain ⟨rfl, heq2⟩ := heq
          simp only [pyLower, List.map_cons, List.cons.injEq] at h1
          obtain ⟨hde, h1x⟩ := h1
          refine ⟨?_, (ih hq2 ps s1).mpr ⟨t1, s2, heq2, h1x, h⟩⟩
          simp only [Bool.or_eq_true, decide_eq_true_eq]
          right
          exact hde.symm

/-- The bridge: for a wildcard-free needle, the ILIKE filter is exactly
case-insensitive substring containment. -/
theorem rowLike_iff_ciSubstr (q s : List Char) (hq : ∀ c ∈ q, c ≠ '%' ∧ c ≠ '_') :
    rowLike q s = true ↔ ciSubstr q s := by
  unfold rowLike ciSubstr
  rw [likeMatch_pct_iff]
  constructor
  · rintro ⟨s2, hs2, hm⟩
    obtain ⟨s1, s3, rfl, h1, -⟩ := (likeMatch_lit_run q hq ['%'] s2).mp hm
    obtain ⟨t, rfl⟩ := hs2
    refine ⟨pyLower t, pyLower s3, ?_⟩
    rw [← h1]
    simp [pyLower]
  · rintro ⟨t, u, heq⟩
    have heq2 : List.map Char.toLower s = t ++ (pyLower q ++ u) := by
      rw [← List.append_assoc]
      exact heq.symm
    obtain ⟨t0, rest, rfl, -, hrest⟩ := List.map_eq_append_iff.mp heq2
    obtain ⟨s1, s2, rfl, hs1, -⟩ := List.map_eq_append_iff.mp hrest
    refine ⟨s1 ++ s2, ⟨t0, rfl⟩, ?_⟩
    apply (likeMatch_lit_run q hq ['%'] (s1 ++ s2)).mpr
    exact ⟨s1, s2, rfl, hs1, likeMatch_pct_only s2⟩

/-! ## Claim C9 -/

/-- C9 fails as stated: the query is spliced into a LIKE pattern, so its
own '%' and '_' act as wildcards.  The query "a_c" selects the post
titled "abc" although "a_c" is not a case-insensitive substring of its
title, content, author username, or any tag name (it has none). -/
theorem c9_counterexample :
    postC9 ∈ api_query dbC9 "a_c" ∧
    ¬ ciSubstr ("a_c".toList) postC9.title ∧
    ¬ ciSubstr ("a_c".toList) postC9.content ∧
    ¬ ciSubstr ("a_c".toList) ("alice".toList) := by
  decide

/-- C9 (amended): for a non-empty query containing no LIKE wildcard
character ('%' or '_'), over a store whose posts all have an author row,
a post is selected by the feed filter iff the query appears
case-insensitively in its title, its content, its author's username, or
the name of an associated tag; and selected posts are not duplicated. -/
theorem c9_search_filter (db : DB) (q : String) (p : Post)
    (hq : pyStrip q.toList ≠ [])
    (hwild : ∀ c ∈ pyStrip q.toList, c ≠ '%' ∧ c ≠ '_')
    (hauth : ∀ p2 ∈ db.posts, ∃ u ∈ db.users, u.id = p2.author_id) :
    (p ∈ api_query db q ↔ p ∈ db.posts ∧
      (ciSubstr (pyStrip q.toList) p.title ∨
       ciSubstr (pyStrip q.toList) p.content ∨
       (∃ u ∈ db.users, u.id = p.author_id ∧ ciSubstr (pyStrip q.toList) u.username) ∨
       (∃ t ∈ db.tags, (∃ pt ∈ db.post_tags, pt.1 = p.id ∧ pt.2 = t.id) ∧
         ciSubstr (pyStrip q.toList) t.name))) ∧
    (db.posts.Nodup → (api_query db q).count p ≤ 1) := by
  have hrw : ∀ s, rowLike (pyStrip q.toList) s = true ↔ ciSubstr (pyStrip q.toList) s :=
    fun s => rowLike_iff_ciSubstr (pyStrip q.toList) s hwild
  have hqe : ¬ (pyStrip q.toList).isEmpty = true := by
    rw [List.isEmpty_iff]
    exact hq
  constructor
  · simp only [api_query]
    rw [if_neg hqe, List.mem_filter]
    simp only [postMatches, List.any_eq_true, Bool.and_eq_true, Bool.or_eq_true,
      beq_iff_eq, hrw]
    constructor
    · rintro ⟨hp, u, hu, hid, hdisj⟩
      refine ⟨hp, ?_⟩
      rcases hdisj with ((ht | hc) | hun) | ⟨t, htmem, hname, pt, hptmem, h1, h2⟩
      · exact Or.inl ht
      · exact Or.inr (Or.inl hc)
      · exact Or.inr (Or.inr (Or.inl ⟨u, hu, hid, hun⟩))
      · exact Or.inr (Or.inr (Or.inr ⟨t, htmem, ⟨pt, hptmem, h1, h2⟩, hname⟩))
    · rintro ⟨hp, hdisj⟩
      refine ⟨hp, ?_⟩
      obtain ⟨u0, hu0, hid0⟩ := hauth p hp
      rcases hdisj with ht | hc | ⟨u, hu, hid, hun⟩ | ⟨t, htmem, ⟨pt, hptmem, h1, h2⟩, hname⟩
      · exact ⟨u0, hu0, hid0, Or.inl (Or.inl (Or.inl ht))⟩
      · exact ⟨u0, hu0, hid0, Or.inl (Or.inl (Or.inr hc))⟩
      · exact ⟨u, hu, hid, Or.inl (Or.inr hun)⟩
      · exact ⟨u0, hu0, hid0, Or.inr ⟨t, htmem, hname, pt, hptmem, h1, h2⟩⟩
  · intro hnodup
    simp only [api_query]
    rw [if_neg hqe]
    exact le_trans ((List.filter_sublist _).count_le p)
      (List.nodup_iff_count_le_one.mp hnodup p)

theorem c9_witness :
    postC9 ∈ api_query dbC9 "ab" ∧ (api_query dbC9 "ab").count postC9 ≤ 1 :=
  ⟨((c9_search_filter dbC9 "ab" postC9 (by decide) (by decide) (by decide)).1).mpr
      (by decide),
    (c9_search_filter dbC9 "ab" postC9 (by decide) (by decide) (by decide)).2 (by decide)⟩

/-- C10: the HTML feed (route index) and the JSON feed (route api_posts)
select, order, and slice exactly the same sequence of posts for every
database state and every page, per_page, and query combination. -/
theorem c10_index_api_same_pipeline (db : DB) (page per_page : Int) (q : String) :
    index_query db q = api_query db q ∧
    index_sorted db q = api_sorted db q ∧
    index_page_posts db page per_page q = api_page_posts db page per_page q :=
  ⟨rfl, rfl, rfl⟩

end Post50
